import Mathlib

/-!
Shallow embedding of the proman packaging dependency engine.

The repository ships src/proman_packaging/cli.py, which is glue around a
package manager, a source tree manager, a lock manager and a local
distribution path. The resolver, lock store, manifest store, installed
distribution tracker and install orchestrator are not part of src/, so
they are modelled here from spec.md; every such definition carries a
doc comment starting with the words Modelled from the spec. The cli.py
guards (the dash guard on install, uninstall and upgrade, and the init
file existence guard) are translated directly from the source.

Versions are modelled as natural numbers and content hashes as natural
numbers; environment markers (python version range, platform filter)
are outside the modelled state, as the claims never exercise them.
-/

/-- Modelled from the spec: a version constraint expression. The spec
uses constraints such as version at least 2 and version below 2; the
grammar here has equality, lower bound, strict upper bound, conjunction
and the trivial constraint. -/
inductive Constraint where
  | anyC : Constraint
  | eqC (v : Nat) : Constraint
  | geC (v : Nat) : Constraint
  | ltC (v : Nat) : Constraint
  | andC (a b : Constraint) : Constraint
deriving DecidableEq, Repr

/-- Modelled from the spec: whether version v satisfies a constraint. -/
def satC (v : Nat) : Constraint → Bool
  | .anyC => true
  | .eqC w => v == w
  | .geC w => w ≤ v
  | .ltC w => v < w
  | .andC a b => satC v a && satC v b

/-- Modelled from the spec: the requirement group. -/
inductive ReqGroup where
  | production
  | development
  | optionalDep
deriving DecidableEq, Repr

/-- Modelled from the spec: a Requirement is a package name, a version
constraint, a group and a prerelease flag. -/
structure Requirement where
  package : String
  constraint : Constraint
  group : ReqGroup
  prerelease : Bool
deriving DecidableEq, Repr

/-- Modelled from the spec: a LockEntry holds package name, resolved
exact version, content hash, originating source and the ordered list of
dependency edges to other LockEntry keys. -/
structure LockEntry where
  name : String
  version : Nat
  hash : Nat
  source : String
  deps : List String
deriving DecidableEq, Repr

/-- Modelled from the spec: one available version of a package as
reported by the Distribution Index, with its own dependency
requirements, source and hash. -/
structure Candidate where
  version : Nat
  prerelease : Bool
  deps : List (String × Constraint)
  source : String
  hash : Nat
deriving DecidableEq, Repr

/-- Modelled from the spec: the Distribution Index snapshot maps package
names to their available candidates. -/
abbrev Index := List (String × List Candidate)

/-- Modelled from the spec: resolver policy parameters force and update. -/
structure Policy where
  force : Bool
  update : List String
deriving DecidableEq, Repr

def defaultPolicy : Policy := ⟨false, []⟩

/-- Modelled from the spec: a pending demand on a package, carrying the
name of the requirer, the demanded package, the constraint and whether a
prerelease is acceptable for this demand. -/
structure Demand where
  requirer : String
  package : String
  constraint : Constraint
  preOk : Bool
deriving DecidableEq, Repr

/-- Modelled from the spec: a fixed assignment for one package together
with the demands it has satisfied so far (used for conflict reports). -/
structure Choice where
  entry : LockEntry
  demands : List Demand
deriving DecidableEq, Repr

/-- Modelled from the spec: a ResolutionConflict carries the package and
the minimal conflicting requirer set. -/
structure Conflict where
  package : String
  requirers : List Demand
deriving DecidableEq, Repr

def lookupIdx (idx : Index) (pkg : String) : List Candidate :=
  match idx.find? (fun p => p.1 == pkg) with
  | some p => p.2
  | none => []

/-- Modelled from the spec: candidate preference order, newest first
with lexical source as deterministic tie break. -/
def candLE (a b : Candidate) : Bool :=
  (b.version < a.version) || (a.version == b.version && decide (a.source ≤ b.source))

def insertCand (c : Candidate) : List Candidate → List Candidate
  | [] => [c]
  | d :: ds => if candLE c d then c :: d :: ds else d :: insertCand c ds

def sortCands (l : List Candidate) : List Candidate := l.foldr insertCand []

def dedupGo (seen : List String) : List LockEntry → List LockEntry
  | [] => []
  | e :: es => if e.name ∈ seen then dedupGo seen es else e :: dedupGo (e.name :: seen) es

/-- Keep only the first entry for each package name. -/
def dedupByName (l : List LockEntry) : List LockEntry := dedupGo [] l

/-- Whether a candidate can discharge a demand: its version satisfies
the demanded constraint and a prerelease is only taken when the demand
allows it. This single notion is used both to filter candidates during
the search and to judge joint satisfiability in conflict reports. -/
def demandOkBy (c : Candidate) (d : Demand) : Bool :=
  satC c.version d.constraint && (!c.prerelease || d.preOk)

def satisfiesAllD (c : Candidate) (ds : List Demand) : Bool :=
  ds.all (fun d => demandOkBy c d)

/-- Modelled from the spec: a demand set is jointly unsatisfiable over a
candidate list when no candidate can discharge all of it. -/
def unsatOver (cands : List Candidate) (ds : List Demand) : Bool :=
  cands.all (fun c => ! satisfiesAllD c ds)

/-- A conflict is definitive when it carries a nonempty requirer set
that is jointly unsatisfiable over the candidates of its package. -/
def isDefinitive (idx : Index) (conf : Conflict) : Bool :=
  !conf.requirers.isEmpty && unsatOver (sortCands (lookupIdx idx conf.package)) conf.requirers

/-- Modelled from the spec: when backtracking exhausts the candidates,
the conflict kept for the report is the first definitively
unsatisfiable one discovered, so the surfaced conflict identifies a
jointly unsatisfiable requirer set whenever one was found. -/
def pickErr (idx : Index) (old new : Conflict) : Conflict :=
  if isDefinitive idx old then old else new

def firstOk {α ε β : Type} (f : α → Except ε β) (comb : ε → ε → ε) :
    List α → ε → Except ε β
  | [], e => .error e
  | a :: as, e =>
    match f a with
    | .ok b => .ok b
    | .error e2 => firstOk f comb as (comb e e2)

/-- Greedy shrink of a jointly unsatisfiable demand set: drop every
demand whose removal keeps the rest unsatisfiable. -/
def shrinkD (cands : List Candidate) : List Demand → List Demand → List Demand
  | [], kept => kept.reverse
  | d :: todo, kept =>
    if unsatOver cands (todo ++ kept) then shrinkD cands todo kept
    else shrinkD cands todo (d :: kept)

def minimizeDemands (cands : List Candidate) (ds : List Demand) : List Demand :=
  shrinkD cands ds []

/-- Modelled from the spec: build the conflict report for a package,
identifying the minimal set of requirers whose constraints are jointly
unsatisfiable over the available candidates. -/
def mkConflict (idx : Index) (pkg : String) (ds : List Demand) : Conflict :=
  ⟨pkg, minimizeDemands (sortCands (lookupIdx idx pkg)) ds⟩

def entryOfCandidate (pkg : String) (c : Candidate) : LockEntry :=
  ⟨pkg, c.version, c.hash, c.source, c.deps.map Prod.fst⟩

def childDemands (pkg : String) (c : Candidate) : List Demand :=
  c.deps.map (fun p => ⟨pkg, p.1, p.2, false⟩)

def findChoice (chosen : List Choice) (pkg : String) : Option Choice :=
  chosen.find? (fun ch => ch.entry.name == pkg)

def recordDemand (chosen : List Choice) (d : Demand) : List Choice :=
  chosen.map (fun ch =>
    if ch.entry.name = d.package then ⟨ch.entry, ch.demands ++ [d]⟩ else ch)

/-- Modelled from the spec: the candidates for a demand, ordered newest
first and filtered by the demanded constraint and the prerelease policy. -/
def candidateList (idx : Index) (d : Demand) : List Candidate :=
  (sortCands (lookupIdx idx d.package)).filter (fun c => demandOkBy c d)

/-- Sentinel conflict returned when the fuel bound is exhausted. -/
def fuelConflict : Conflict := ⟨"", []⟩

/-- Modelled from the spec: the resolver search. It processes pending
demands; a demand on an already fixed package is checked against the
fixed version and recorded, raising a conflict over the accumulated
demands when it fails; a demand on an unfixed package selects among the
filtered candidates, newest first, recursively resolving the dependency
demands of the selected candidate and backtracking to the next candidate
when a branch fails. When every candidate branch has failed, the error
kept is the first definitively unsatisfiable conflict found among the
branches (pickErr). Every conflict report passes through mkConflict and
is therefore shrunk to an irreducible requirer set. Fuel bounds the
recursion; the bound chosen by resolve is generous enough for the runs
appearing in this development. -/
def solve (idx : Index) : Nat → List Demand → List Choice → Except Conflict (List Choice)
  | 0, _, _ => .error fuelConflict
  | Nat.succ _, [], chosen => .ok chosen
  | Nat.succ fuel, d :: rest, chosen =>
    match findChoice chosen d.package with
    | some ch =>
      if satC ch.entry.version d.constraint then
        solve idx fuel rest (recordDemand chosen d)
      else .error (mkConflict idx d.package (ch.demands ++ [d]))
    | none =>
      firstOk
        (fun c => solve idx fuel (childDemands d.package c ++ rest)
          (chosen ++ [⟨entryOfCandidate d.package c, [d]⟩]))
        (pickErr idx)
        (candidateList idx d)
        (mkConflict idx d.package [d])

def requiredBy (R : List Requirement) (n : String) : Bool :=
  R.any (fun r => r.package == n)

/-- Every direct requirement on the package of this entry is satisfied
by its version. -/
def directSat (R : List Requirement) (e : LockEntry) : Bool :=
  R.all (fun r => r.package != e.name || satC e.version r.constraint)

/-- Some other lock entry has a dependency edge to this name. -/
def referredBy (L : List LockEntry) (n : String) : Bool :=
  L.any (fun e2 => e2.name != n && e2.deps.contains n)

/-- Modelled from the spec: the seeding rule. A prior lock entry is kept
in the initial candidate assignment when the policy does not discard it,
its package is still wanted (still directly required, or still referred
to by a dependency edge of another prior entry) and its version still
satisfies every direct requirement on its package. -/
def seedKeep (R : List Requirement) (L : List LockEntry) (pol : Policy) (e : LockEntry) : Bool :=
  !pol.force && !(pol.update.contains e.name) && directSat R e
    && (requiredBy R e.name || referredBy L e.name)

def seedLock (R : List Requirement) (L : List LockEntry) (pol : Policy) : List LockEntry :=
  dedupByName (L.filter (seedKeep R L pol))

def reqDemand (r : Requirement) : Demand :=
  ⟨"project", r.package, r.constraint, r.prerelease⟩

/-- Dependency edges of a seeded entry are demanded with the trivial
constraint, since the lock records keys only. -/
def seedDemands (e : LockEntry) : List Demand :=
  e.deps.map (fun n => ⟨e.name, n, .anyC, false⟩)

def initialDemands (R : List Requirement) (seeds : List LockEntry) : List Demand :=
  R.map reqDemand ++ seeds.flatMap seedDemands

def idxWeight (idx : Index) : Nat :=
  idx.foldl (fun a p => a + p.2.foldl (fun b c => b + c.deps.length + 1) 0) 0

/-- Modelled from the spec: the Resolver. resolve is a pure function of
the requirements, the prior lock, the index snapshot and the policy; it
seeds a candidate assignment from the prior lock, resolves the pending
demands by constraint propagation with backtracking and returns either a
new lock or a conflict. -/
def resolve (R : List Requirement) (L : List LockEntry) (idx : Index) (pol : Policy) :
    Except Conflict (List LockEntry) :=
  let seeds := seedLock R L pol
  let pending := initialDemands R seeds
  (solve idx (pending.length + idxWeight idx + 1) pending
      (seeds.map (fun e => ⟨e, []⟩))).map
    (fun chosen => chosen.map (fun ch => ch.entry))

/-! ### Lock Store: structured-document serialization (claim C5) -/

/-- Modelled from the spec: the external structured-document store is
opaque; a document is a tree of numbers, strings and lists. -/
inductive Doc where
  | nat (n : Nat) : Doc
  | str (s : String) : Doc
  | arr (l : List Doc) : Doc

/-- Modelled from the spec: serialize one lock entry into the structured
document (name, exact version, content hash, source, dependency edges). -/
def encodeEntry (e : LockEntry) : Doc :=
  .arr [.str e.name, .nat e.version, .nat e.hash, .str e.source,
        .arr (e.deps.map .str)]

def decodeStrs : List Doc → Option (List String)
  | [] => some []
  | .str s :: rest => (decodeStrs rest).map (fun l => s :: l)
  | _ => none

def decodeEntry : Doc → Option LockEntry
  | .arr [.str n, .nat v, .nat h, .str src, .arr ds] =>
    (decodeStrs ds).map (fun deps => ⟨n, v, h, src, deps⟩)
  | _ => none

/-- Modelled from the spec: Lock Store save writes the lock as a
structured list of entries (the atomic stage-then-swap mechanics live
below the document level and are not observable here). -/
def saveLock (L : List LockEntry) : Doc := .arr (L.map encodeEntry)

def decodeEntries : List Doc → Option (List LockEntry)
  | [] => some []
  | d :: rest => (decodeEntry d).bind (fun e => (decodeEntries rest).map (fun l => e :: l))

/-- Modelled from the spec: Lock Store load returns the lock or absent. -/
def loadLock : Doc → Option (List LockEntry)
  | .arr ds => decodeEntries ds
  | _ => none

/-! ### Installed Distribution Tracker and the transactional apply phase
(claims C2 and C7) -/

/-- Modelled from the spec: an installed distribution as tracked in the
project local distribution directory. -/
structure InstalledDistribution where
  name : String
  version : Nat
  hash : Nat
deriving DecidableEq, Repr

/-- Modelled from the spec: a fetched artifact, identified by its
content hash. -/
structure Artifact where
  hash : Nat
deriving DecidableEq, Repr

def distOf (e : LockEntry) (a : Artifact) : InstalledDistribution :=
  ⟨e.name, e.version, a.hash⟩

/-- Modelled from the spec: Tracker.install fails with IntegrityError
when the artifact content hash does not match the recorded hash of the
lock entry, aborting before any mutation; otherwise the distribution is
added to the tracker state. -/
def installDist (tr : List InstalledDistribution) (e : LockEntry) (a : Artifact) :
    Option (List InstalledDistribution) :=
  if a.hash = e.hash then some (distOf e a :: tr) else none

/-- Modelled from the spec: Tracker.remove by package name. -/
def removeDistAll (tr : List InstalledDistribution) (n : String) :
    List InstalledDistribution :=
  tr.filter (fun d => d.name != n)

def lookupDist (tr : List InstalledDistribution) (n : String) :
    Option InstalledDistribution :=
  tr.find? (fun d => d.name == n)

def eraseFirstName (n : String) : List InstalledDistribution → List InstalledDistribution
  | [] => []
  | d :: ds => if d.name = n then ds else d :: eraseFirstName n ds

/-- Modelled from the spec: rollback undoes the installs already
performed in this transaction by removing the just installed
distributions, most recent first. -/
def rollbackInstalls (log : List String) (tr : List InstalledDistribution) :
    List InstalledDistribution :=
  log.foldl (fun t n => eraseFirstName n t) tr

/-- Modelled from the spec: perform the install batch one by one,
keeping an undo log; an IntegrityError triggers rollback of every
install already performed and surfaces the rolled back tracker state. -/
def applyInstalls (log : List String) (tr : List InstalledDistribution) :
    List (LockEntry × Artifact) →
    Except (List InstalledDistribution) (List InstalledDistribution)
  | [] => .ok tr
  | (e, a) :: rest =>
    match installDist tr e a with
    | some tr2 => applyInstalls (e.name :: log) tr2 rest
    | none => .error (rollbackInstalls log tr)

/-- Modelled from the spec: the Applying phase performs all installs
first and batches the removals strictly after all installs succeed. -/
def applyPhase (tr : List InstalledDistribution)
    (installs : List (LockEntry × Artifact)) (removals : List String) :
    Except (List InstalledDistribution) (List InstalledDistribution) :=
  match applyInstalls [] tr installs with
  | .error tr2 => .error tr2
  | .ok tr2 => .ok (removals.foldl removeDistAll tr2)

/-! ### Install Orchestrator (claims C2, C7, C8) -/

/-- Modelled from the spec: the state owned by one transaction, namely
the manifest store, the lock store, the installed distribution tracker
and the (read only) distribution index. -/
structure SysState where
  manifest : List Requirement
  lock : List LockEntry
  tracker : List InstalledDistribution
  idx : Index
deriving DecidableEq, Repr

inductive Outcome where
  | committed
  | resolutionConflict (c : Conflict)
  | fetchFailed
  | rolledBack
deriving DecidableEq, Repr

/-- Modelled from the spec: run the Applying and Committing states of a
transaction. On an Applying failure the tracker mutations are rolled
back and neither the manifest nor the lock is persisted; on success the
new lock and manifest are persisted. -/
def runTxn (sys : SysState) (nm : List Requirement) (nl : List LockEntry)
    (installs : List (LockEntry × Artifact)) (removals : List String) :
    SysState × Outcome :=
  match applyPhase sys.tracker installs removals with
  | .error tr2 => ({ sys with tracker := tr2 }, .rolledBack)
  | .ok tr2 => (⟨nm, nl, tr2, sys.idx⟩, .committed)

structure LockDiff where
  added : List LockEntry
  removed : List LockEntry
  changed : List (LockEntry × LockEntry)
deriving DecidableEq, Repr

def lookupEntry (L : List LockEntry) (n : String) : Option LockEntry :=
  L.find? (fun e => e.name == n)

/-- Modelled from the spec: Lock Store diff, keyed by package name. -/
def lockDiff (oldL newL : List LockEntry) : LockDiff :=
  { added := newL.filter (fun e => (lookupEntry oldL e.name).isNone)
    removed := oldL.filter (fun e => (lookupEntry newL e.name).isNone)
    changed := oldL.filterMap (fun e =>
      match lookupEntry newL e.name with
      | some e2 => if e2 = e then none else some (e, e2)
      | none => none) }

/-- Modelled from the spec: fetch the artifact of a lock entry via the
Distribution Index. -/
def fetchArtifact (idx : Index) (e : LockEntry) : Option Artifact :=
  ((lookupIdx idx e.name).find? (fun c => c.version == e.version)).map
    (fun c => ⟨c.hash⟩)

def fetchAll (idx : Index) : List LockEntry → Option (List (LockEntry × Artifact))
  | [] => some []
  | e :: rest =>
    (fetchArtifact idx e).bind (fun a => (fetchAll idx rest).map (fun l => (e, a) :: l))

/-- Modelled from the spec: only removed entries with no remaining
referrer in the new lock are removed from the tracker. -/
def removalNames (d : LockDiff) (newL : List LockEntry) : List String :=
  (d.removed.filter (fun e => newL.all (fun e2 => !(e2.deps.contains e.name)))).map
    (fun e => e.name)

/-- Modelled from the spec: the uninstall verb as a transaction. The
requirement is removed from the in-memory manifest first (removing a
non existent requirement is a no-op), then the resolver runs; a
conflict discards the manifest mutation; otherwise the diff against the
prior lock is applied through the tracker and, on full success, the new
lock and manifest are persisted. -/
def uninstallFlow (sys : SysState) (name : String) : SysState × Outcome :=
  let nm := sys.manifest.filter (fun r => r.package != name)
  match resolve nm sys.lock sys.idx defaultPolicy with
  | .error c => (sys, .resolutionConflict c)
  | .ok nl =>
    let d := lockDiff sys.lock nl
    let installs := d.added ++ d.changed.map (fun p => p.2)
    match fetchAll sys.idx installs with
    | none => (sys, .fetchFailed)
    | some pairs => runTxn sys nm nl pairs (removalNames d nl)

/-! ### CLI layer, translated from src/proman_packaging/cli.py
(claims C9 and C10) -/

inductive ManagerCall where
  | installPkg (name : Option String) (dev : Bool) (python : Option String)
      (platform : Option String) (optionalFlag : Bool) (prerelease : Bool)
  | uninstallPkg (name : Option String)
  | upgradePkg (name : Option String) (force : Bool)
deriving DecidableEq, Repr

inductive CliEffect where
  | printed (msg : String)
  | call (c : ManagerCall)
deriving DecidableEq, Repr

/-- Whether the first character of the string is a dash; this is the
python expression testing that a name starts with a dash. -/
def startsWithDash (n : String) : Bool :=
  match n.data with
  | [] => false
  | c :: _ => c == '-'

/-- Python truthiness of a string: the empty string is falsy. -/
def strTruthy (n : String) : Bool :=
  match n.data with
  | [] => false
  | _ :: _ => true

/-- Translated from cli.py: the truthiness test of the name followed by
the dash test. A missing or empty name is falsy, so the guard fires
exactly for a nonempty name starting with a dash character. -/
def dashGuard (name : Option String) : Bool :=
  match name with
  | none => false
  | some n => strTruthy n && startsWithDash n

/-- Translated from cli.py lines 94-125: install prints an error for a
dash argument and otherwise calls the package manager. -/
def cliInstall (name : Option String) (dev : Bool) (python platform : Option String)
    (optionalFlag prerelease : Bool) : CliEffect :=
  if dashGuard name then .printed "error: not a valid install argument"
  else .call (.installPkg name dev python platform optionalFlag prerelease)

/-- Translated from cli.py lines 128-133: uninstall prints an error for
a dash argument and otherwise calls the package manager. -/
def cliUninstall (name : Option String) : CliEffect :=
  if dashGuard name then .printed "error: not a valid install argument"
  else .call (.uninstallPkg name)

/-- Translated from cli.py lines 136-153: upgrade prints an error for a
dash argument and otherwise calls the package manager. -/
def cliUpgrade (name : Option String) (force : Bool) : CliEffect :=
  if dashGuard name then .printed "error: not a valid install argument"
  else .call (.upgradePkg name force)

/-- Interpretation of a CLI effect over any manager semantics: printing
leaves the managed state untouched; a call runs the package manager. -/
def runEffect {σ : Type} (mgr : ManagerCall → σ → σ) (st : σ) : CliEffect → σ
  | .printed _ => st
  | .call c => mgr c st

/-- Translated from cli.py: the fresh project table written by init. -/
structure PromanTable where
  authors : List String
  pname : String
  description : String
  version : String
  dependencies : List (String × String)
  devDependencies : List (String × String)
deriving DecidableEq, Repr

/-- The configuration document state visible to init: whether the
manifest file exists, and the proman table it carries. -/
structure ConfigState where
  fileExists : Bool
  proman : Option PromanTable
deriving DecidableEq, Repr

def freshTable (name : String) : PromanTable :=
  ⟨["Jesse P. Johnson"], name, "Description for the project", "0.1.0", [], []⟩

/-- Translated from cli.py lines 61-80: init writes a fresh project
table and dumps it when the manifest file does not exist, and otherwise
only prints a message. -/
def cliInit (name : String) (st : ConfigState) : ConfigState × List String :=
  if st.fileExists then (st, ["project is already initialized"])
  else (⟨true, some (freshTable name)⟩, [])

/-- Modelled from the spec: the consistency invariant tying manifest,
lock and installed state between transactions. Every requirement is
satisfied by a lock entry, lock dependency edges are closed, entry
names are unique, and every entry is still wanted, being directly
required or referred to by a dependency edge of another entry. -/
def WFState (sys : SysState) : Prop :=
  (∀ r ∈ sys.manifest, ∃ e ∈ sys.lock,
    e.name = r.package ∧ satC e.version r.constraint = true) ∧
  (∀ e ∈ sys.lock, ∀ n ∈ e.deps, ∃ e2 ∈ sys.lock, e2.name = n) ∧
  ((sys.lock.map LockEntry.name).Nodup) ∧
  (∀ e ∈ sys.lock, (requiredBy sys.manifest e.name || referredBy sys.lock e.name) = true)

instance (sys : SysState) : Decidable (WFState sys) := by
  unfold WFState
  infer_instance

/-! ### Helper lemmas about the resolver search -/

theorem firstOk_ok {α ε β : Type} (f : α → Except ε β) (comb : ε → ε → ε) :
    ∀ (l : List α) (e : ε) (b : β), firstOk f comb l e = .ok b → ∃ a ∈ l, f a = .ok b := by
  intro l
  induction l with
  | nil => intro e b h; simp [firstOk] at h
  | cons a as ih =>
    intro e b h
    simp only [firstOk] at h
    cases hfa : f a with
    | ok b2 =>
      rw [hfa] at h
      exact ⟨a, List.mem_cons_self a as, by simpa using hfa.trans (by simpa using h)⟩
    | error e2 =>
      rw [hfa] at h
      obtain ⟨x, hx, hfx⟩ := ih (comb e e2) b h
      exact ⟨x, List.mem_cons_of_mem a hx, hfx⟩

theorem recordDemand_map_entry (chosen : List Choice) (d : Demand) :
    (recordDemand chosen d).map Choice.entry = chosen.map Choice.entry := by
  simp only [recordDemand, List.map_map]
  apply List.map_congr_left
  intro ch _
  simp only [Function.comp]
  split <;> rfl

theorem solve_ok_entries (idx : Index) :
    ∀ (fuel : Nat) (pending : List Demand) (chosen l : List Choice),
      solve idx fuel pending chosen = .ok l →
      ∃ ext, l.map Choice.entry = chosen.map Choice.entry ++ ext := by
  intro fuel
  induction fuel with
  | zero => intro pending chosen l h; simp [solve] at h
  | succ fuel ih =>
    intro pending chosen l h
    cases pending with
    | nil =>
      simp only [solve] at h
      cases h
      exact ⟨[], by simp⟩
    | cons d rest =>
      simp only [solve] at h
      split at h
      · split at h
        · obtain ⟨ext, hext⟩ := ih rest (recordDemand chosen d) l h
          exact ⟨ext, by rw [hext, recordDemand_map_entry]⟩
        · cases h
      · obtain ⟨c, _, hc⟩ := firstOk_ok _ _ _ _ _ h
        obtain ⟨ext, hext⟩ := ih _ _ l hc
        refine ⟨entryOfCandidate d.package c :: ext, ?_⟩
        rw [hext]
        simp

theorem findChoice_some {chosen : List Choice} {pkg : String} {ch : Choice}
    (h : findChoice chosen pkg = some ch) : ch ∈ chosen ∧ ch.entry.name = pkg := by
  refine ⟨List.mem_of_find?_eq_some h, ?_⟩
  have := List.find?_some h
  simpa using this

theorem findChoice_none {chosen : List Choice} {pkg : String}
    (h : findChoice chosen pkg = none) : ∀ ch ∈ chosen, ch.entry.name ≠ pkg := by
  intro ch hch
  have := List.find?_eq_none.mp h ch hch
  simpa using this

theorem mem_candidateList {idx : Index} {d : Demand} {c : Candidate}
    (h : c ∈ candidateList idx d) :
    c ∈ sortCands (lookupIdx idx d.package) ∧ satC c.version d.constraint = true := by
  have := List.mem_filter.mp h
  refine ⟨this.1, ?_⟩
  have h2 := this.2
  simp only [demandOkBy, Bool.and_eq_true] at h2
  exact h2.1

theorem solve_ok_sat (idx : Index) :
    ∀ (fuel : Nat) (pending : List Demand) (chosen l : List Choice),
      solve idx fuel pending chosen = .ok l →
      ∀ d ∈ pending, ∃ en ∈ l.map Choice.entry,
        en.name = d.package ∧ satC en.version d.constraint = true := by
  intro fuel
  induction fuel with
  | zero => intro pending chosen l h; simp [solve] at h
  | succ fuel ih =>
    intro pending chosen l h
    cases pending with
    | nil => intro d hd; simp at hd
    | cons d rest =>
      simp only [solve] at h
      intro d2 hd2
      rcases List.mem_cons.mp hd2 with hd2 | hd2
      · subst hd2
        split at h
        · rename_i ch hfc
          split at h
          · rename_i hs
            obtain ⟨hmem, hname⟩ := findChoice_some hfc
            obtain ⟨ext, hext⟩ := solve_ok_entries idx fuel _ _ l h
            refine ⟨ch.entry, ?_, hname, hs⟩
            rw [hext, recordDemand_map_entry]
            exact List.mem_append_left _ (List.mem_map_of_mem Choice.entry hmem)
          · cases h
        · rename_i hfc
          obtain ⟨c, hcmem, hc⟩ := firstOk_ok _ _ _ _ _ h
          obtain ⟨ext, hext⟩ := solve_ok_entries idx fuel _ _ l hc
          refine ⟨entryOfCandidate d2.package c, ?_, rfl, (mem_candidateList hcmem).2⟩
          rw [hext]
          simp
      · split at h
        · split at h
          · exact ih rest _ l h d2 hd2
          · cases h
        · obtain ⟨c, hcmem, hc⟩ := firstOk_ok _ _ _ _ _ h
          exact ih _ _ l hc d2 (List.mem_append_right _ hd2)

theorem eq_of_map_nodup {α β : Type} (f : α → β) :
    ∀ {l : List α}, (l.map f).Nodup → ∀ {a b : α}, a ∈ l → b ∈ l → f a = f b → a = b := by
  intro l
  induction l with
  | nil => intro _ a b ha; simp at ha
  | cons x xs ih =>
    intro h a b ha hb hfab
    simp only [List.map_cons, List.nodup_cons] at h
    rcases List.mem_cons.mp ha with ha | ha <;> rcases List.mem_cons.mp hb with hb | hb
    · rw [ha, hb]
    · exfalso
      apply h.1
      rw [ha] at hfab
      rw [hfab]
      exact List.mem_map_of_mem f hb
    · exfalso
      apply h.1
      rw [hb] at hfab
      rw [← hfab]
      exact List.mem_map_of_mem f ha
    · exact ih h.2 ha hb hfab

theorem recordDemand_map_name (chosen : List Choice) (d : Demand) :
    ((recordDemand chosen d).map Choice.entry).map LockEntry.name
      = (chosen.map Choice.entry).map LockEntry.name := by
  rw [recordDemand_map_entry]

theorem solve_ok_nodup (idx : Index) :
    ∀ (fuel : Nat) (pending : List Demand) (chosen l : List Choice),
      ((chosen.map Choice.entry).map LockEntry.name).Nodup →
      solve idx fuel pending chosen = .ok l →
      ((l.map Choice.entry).map LockEntry.name).Nodup := by
  intro fuel
  induction fuel with
  | zero => intro pending chosen l _ h; simp [solve] at h
  | succ fuel ih =>
    intro pending chosen l hnd h
    cases pending with
    | nil =>
      simp only [solve] at h
      cases h
      exact hnd
    | cons d rest =>
      simp only [solve] at h
      split at h
      · split at h
        · refine ih rest _ l ?_ h
          rw [recordDemand_map_name]
          exact hnd
        · cases h
      · rename_i hfc
        obtain ⟨c, _, hc⟩ := firstOk_ok _ _ _ _ _ h
        refine ih _ _ l ?_ hc
        have hnotin : ∀ ch ∈ chosen, ch.entry.name ≠ d.package := findChoice_none hfc
        simp only [List.map_append, List.map_cons, List.map_nil]
        rw [List.nodup_append]
        refine ⟨hnd, List.nodup_singleton _, ?_⟩
        intro a ha hb
        simp only [List.mem_singleton] at hb
        simp only [List.mem_map] at ha
        obtain ⟨en, hen, hname⟩ := ha
        obtain ⟨ch, hch, hche⟩ := hen
        apply hnotin ch hch
        rw [hche, hname, hb]
        rfl

theorem mem_insertCand {x c : Candidate} :
    ∀ {l : List Candidate}, x ∈ insertCand c l → x = c ∨ x ∈ l := by
  intro l
  induction l with
  | nil =>
    intro h
    simp [insertCand] at h
    exact Or.inl h
  | cons d ds ih =>
    intro h
    simp only [insertCand] at h
    split at h
    · rcases List.mem_cons.mp h with h | h
      · exact Or.inl h
      · exact Or.inr h
    · rcases List.mem_cons.mp h with h | h
      · exact Or.inr (by rw [h]; exact List.mem_cons_self d ds)
      · rcases ih h with h | h
        · exact Or.inl h
        · exact Or.inr (List.mem_cons_of_mem d h)

theorem mem_sortCands {x : Candidate} :
    ∀ {l : List Candidate}, x ∈ sortCands l → x ∈ l := by
  intro l
  induction l with
  | nil => intro h; simp [sortCands] at h
  | cons c cs ih =>
    intro h
    have h2 : x ∈ insertCand c (sortCands cs) := h
    rcases mem_insertCand h2 with h3 | h3
    · rw [h3]; exact List.mem_cons_self c cs
    · exact List.mem_cons_of_mem c (ih h3)

theorem mem_lookupIdx {idx : Index} {pkg : String} {c : Candidate}
    (h : c ∈ lookupIdx idx pkg) : ∃ p ∈ idx, c ∈ p.2 := by
  unfold lookupIdx at h
  cases hf : idx.find? (fun p => p.1 == pkg) with
  | some p =>
    rw [hf] at h
    exact ⟨p, List.mem_of_find?_eq_some hf, h⟩
  | none =>
    rw [hf] at h
    simp at h

theorem solve_ok_closed (idx : Index) :
    ∀ (fuel : Nat) (pending : List Demand) (chosen l : List Choice),
      (∀ en ∈ chosen.map Choice.entry, ∀ n ∈ en.deps,
        (∃ en2 ∈ chosen.map Choice.entry, en2.name = n) ∨ (∃ d ∈ pending, d.package = n)) →
      solve idx fuel pending chosen = .ok l →
      ∀ en ∈ l.map Choice.entry, ∀ n ∈ en.deps, ∃ en2 ∈ l.map Choice.entry, en2.name = n := by
  intro fuel
  induction fuel with
  | zero => intro pending chosen l _ h; simp [solve] at h
  | succ fuel ih =>
    intro pending chosen l hinv h
    cases pending with
    | nil =>
      simp only [solve] at h
      cases h
      intro en hen n hn
      rcases hinv en hen n hn with h2 | h2
      · exact h2
      · obtain ⟨d, hd, _⟩ := h2
        simp at hd
    | cons d rest =>
      simp only [solve] at h
      split at h
      · rename_i ch hfc
        split at h
        · refine ih rest _ l ?_ h
          rw [recordDemand_map_entry]
          intro en hen n hn
          rcases hinv en hen n hn with h2 | h2
          · exact Or.inl h2
          · obtain ⟨d2, hd2, hd2p⟩ := h2
            rcases List.mem_cons.mp hd2 with hd2 | hd2
            · subst hd2
              obtain ⟨hcmem, hcname⟩ := findChoice_some hfc
              exact Or.inl ⟨ch.entry, List.mem_map_of_mem Choice.entry hcmem,
                by rw [hcname, hd2p]⟩
            · exact Or.inr ⟨d2, hd2, hd2p⟩
        · cases h
      · obtain ⟨c, _, hc⟩ := firstOk_ok _ _ _ _ _ h
        refine ih _ _ l ?_ hc
        intro en hen n hn
        simp only [List.map_append, List.map_cons, List.map_nil] at hen
        rcases List.mem_append.mp hen with hen | hen
        · rcases hinv en hen n hn with h2 | h2
          · obtain ⟨en2, hen2, hname⟩ := h2
            exact Or.inl ⟨en2, by simp [hen2], hname⟩
          · obtain ⟨d2, hd2, hd2p⟩ := h2
            rcases List.mem_cons.mp hd2 with hd2 | hd2
            · subst hd2
              refine Or.inl ⟨entryOfCandidate d2.package c, by simp, hd2p⟩
            · exact Or.inr ⟨d2, List.mem_append_right _ hd2, hd2p⟩
        · simp only [List.mem_singleton] at hen
          subst hen
          have hn2 : n ∈ c.deps.map Prod.fst := hn
          obtain ⟨p, hp, hpn⟩ := List.mem_map.mp hn2
          refine Or.inr ⟨⟨d.package, p.1, p.2, false⟩, ?_, hpn⟩
          exact List.mem_append_left _ (List.mem_map_of_mem _ hp)

theorem solve_ok_avoid (idx : Index) (X : String)
    (hidx : ∀ p ∈ idx, ∀ c ∈ p.2, ∀ q ∈ c.deps, q.1 ≠ X) :
    ∀ (fuel : Nat) (pending : List Demand) (chosen l : List Choice),
      (∀ en ∈ chosen.map Choice.entry, en.name ≠ X ∧ X ∉ en.deps) →
      (∀ d ∈ pending, d.package ≠ X) →
      solve idx fuel pending chosen = .ok l →
      ∀ en ∈ l.map Choice.entry, en.name ≠ X ∧ X ∉ en.deps := by
  intro fuel
  induction fuel with
  | zero => intro pending chosen l _ _ h; simp [solve] at h
  | succ fuel ih =>
    intro pending chosen l hch hp h
    cases pending with
    | nil =>
      simp only [solve] at h
      cases h
      exact hch
    | cons d rest =>
      simp only [solve] at h
      split at h
      · split at h
        · refine ih rest _ l ?_ (fun d2 hd2 => hp d2 (List.mem_cons_of_mem d hd2)) h
          rw [recordDemand_map_entry]
          exact hch
        · cases h
      · obtain ⟨c, hcmem, hc⟩ := firstOk_ok _ _ _ _ _ h
        have hcsort := (mem_candidateList hcmem).1
        obtain ⟨p, hpidx, hcp⟩ := mem_lookupIdx (mem_sortCands hcsort)
        have hcdeps : ∀ q ∈ c.deps, q.1 ≠ X := hidx p hpidx c hcp
        refine ih _ _ l ?_ ?_ hc
        · intro en hen
          simp only [List.map_append, List.map_cons, List.map_nil] at hen
          rcases List.mem_append.mp hen with hen | hen
          · exact hch en hen
          · simp only [List.mem_singleton] at hen
            subst hen
            constructor
            · exact hp d (List.mem_cons_self d rest)
            · intro hx
              obtain ⟨q, hq, hq1⟩ := List.mem_map.mp hx
              exact hcdeps q hq hq1
        · intro d2 hd2
          rcases List.mem_append.mp hd2 with hd2 | hd2
          · obtain ⟨q, hq, hqe⟩ := List.mem_map.mp hd2
            rw [← hqe]
            exact hcdeps q hq
          · exact hp d2 (List.mem_cons_of_mem d hd2)

theorem solve_allsat (idx : Index) :
    ∀ (pending : List Demand) (fuel : Nat) (chosen : List Choice),
      (∀ d ∈ pending, ∃ en ∈ chosen.map Choice.entry,
        en.name = d.package ∧ satC en.version d.constraint = true) →
      ((chosen.map Choice.entry).map LockEntry.name).Nodup →
      pending.length < fuel →
      ∃ chosen2, solve idx fuel pending chosen = .ok chosen2 ∧
        chosen2.map Choice.entry = chosen.map Choice.entry := by
  intro pending
  induction pending with
  | nil =>
    intro fuel chosen _ _ hfuel
    cases fuel with
    | zero => omega
    | succ fuel => exact ⟨chosen, by simp [solve], rfl⟩
  | cons d rest ih =>
    intro fuel chosen hsat hnd hfuel
    cases fuel with
    | zero => simp at hfuel
    | succ fuel =>
      obtain ⟨en, hen, hname, hs⟩ := hsat d (List.mem_cons_self d rest)
      cases hfc : findChoice chosen d.package with
      | none =>
        exfalso
        obtain ⟨ch0, hch0, hch0e⟩ := List.mem_map.mp hen
        apply findChoice_none hfc ch0 hch0
        rw [hch0e]
        exact hname
      | some ch =>
        obtain ⟨hchmem, hchname⟩ := findChoice_some hfc
        have hce : ch.entry = en :=
          eq_of_map_nodup LockEntry.name hnd (List.mem_map_of_mem Choice.entry hchmem)
            hen (by rw [hchname, hname])
        have hsch : satC ch.entry.version d.constraint = true := by rw [hce]; exact hs
        have hlen : rest.length < fuel := by
          simp only [List.length_cons] at hfuel
          omega
        obtain ⟨chosen2, heq, hent⟩ := ih fuel (recordDemand chosen d)
          (by
            rw [recordDemand_map_entry]
            intro d2 hd2
            exact hsat d2 (List.mem_cons_of_mem d hd2))
          (by rw [recordDemand_map_entry]; exact hnd)
          hlen
        refine ⟨chosen2, ?_, by rw [hent, recordDemand_map_entry]⟩
        simp only [solve, hfc]
        rw [if_pos hsch]
        exact heq

theorem dedupGo_names :
    ∀ (l : List LockEntry) (seen : List String),
      ((dedupGo seen l).map LockEntry.name).Nodup ∧
      ∀ n ∈ (dedupGo seen l).map LockEntry.name, n ∉ seen := by
  intro l
  induction l with
  | nil => intro seen; simp [dedupGo]
  | cons e es ih =>
    intro seen
    simp only [dedupGo]
    split
    · exact ih seen
    · rename_i hnot
      obtain ⟨ihnd, ihdisj⟩ := ih (e.name :: seen)
      simp only [List.map_cons, List.nodup_cons]
      refine ⟨⟨?_, ihnd⟩, ?_⟩
      · intro hmem
        exact ihdisj e.name hmem (List.mem_cons_self _ _)
      · intro n hn
        rcases List.mem_cons.mp hn with hn | hn
        · rw [hn]; exact hnot
        · intro hseen
          exact ihdisj n hn (List.mem_cons_of_mem _ hseen)

theorem dedupGo_sub :
    ∀ (l : List LockEntry) (seen : List String), ∀ x ∈ dedupGo seen l, x ∈ l := by
  intro l
  induction l with
  | nil => intro seen x hx; simp [dedupGo] at hx
  | cons e es ih =>
    intro seen x hx
    simp only [dedupGo] at hx
    split at hx
    · exact List.mem_cons_of_mem e (ih seen x hx)
    · rcases List.mem_cons.mp hx with hx | hx
      · rw [hx]; exact List.mem_cons_self e es
      · exact List.mem_cons_of_mem e (ih _ x hx)

theorem dedupGo_eq_self :
    ∀ (l : List LockEntry) (seen : List String),
      (∀ e ∈ l, e.name ∉ seen) → (l.map LockEntry.name).Nodup →
      dedupGo seen l = l := by
  intro l
  induction l with
  | nil => intro seen _ _; rfl
  | cons e es ih =>
    intro seen hdisj hnd
    simp only [List.map_cons, List.nodup_cons] at hnd
    simp only [dedupGo, if_neg (hdisj e (List.mem_cons_self e es))]
    congr 1
    apply ih
    · intro e2 he2
      intro hmem
      rcases List.mem_cons.mp hmem with hmem | hmem
      · exact hnd.1 (hmem ▸ List.mem_map_of_mem LockEntry.name he2)
      · exact hdisj e2 (List.mem_cons_of_mem e he2) hmem
    · exact hnd.2

theorem seedLock_names_nodup (R : List Requirement) (L : List LockEntry) (pol : Policy) :
    ((seedLock R L pol).map LockEntry.name).Nodup :=
  (dedupGo_names _ []).1

theorem mem_seedLock_of {R : List Requirement} {L : List LockEntry} {pol : Policy}
    {e : LockEntry} (hL : (L.map LockEntry.name).Nodup) (he : e ∈ L)
    (hkeep : seedKeep R L pol e = true) : e ∈ seedLock R L pol := by
  unfold seedLock dedupByName
  have hfilter : e ∈ L.filter (seedKeep R L pol) := List.mem_filter.mpr ⟨he, hkeep⟩
  have hsub : (L.filter (seedKeep R L pol)).map LockEntry.name |>.Sublist (L.map LockEntry.name) :=
    (List.filter_sublist L).map LockEntry.name
  rw [dedupGo_eq_self _ [] (by intro x _ hx; simp at hx) (hL.sublist hsub)]
  exact hfilter

theorem seedLock_sub (R : List Requirement) (L : List LockEntry) (pol : Policy) :
    ∀ e ∈ seedLock R L pol, e ∈ L ∧ seedKeep R L pol e = true := by
  intro e he
  have := dedupGo_sub _ [] e he
  have h2 := List.mem_filter.mp this
  exact ⟨h2.1, h2.2⟩

theorem resolve_def (R : List Requirement) (L : List LockEntry) (idx : Index) (pol : Policy) :
    resolve R L idx pol =
      (solve idx ((initialDemands R (seedLock R L pol)).length + idxWeight idx + 1)
        (initialDemands R (seedLock R L pol))
        ((seedLock R L pol).map (fun e => ⟨e, []⟩))).map
        (fun chosen => chosen.map Choice.entry) := rfl

theorem resolve_ok_inv {R : List Requirement} {L : List LockEntry} {idx : Index}
    {pol : Policy} {l : List LockEntry} (h : resolve R L idx pol = .ok l) :
    ∃ chosen, solve idx ((initialDemands R (seedLock R L pol)).length + idxWeight idx + 1)
      (initialDemands R (seedLock R L pol))
      ((seedLock R L pol).map (fun e => ⟨e, []⟩)) = .ok chosen ∧
      l = chosen.map Choice.entry := by
  rw [resolve_def] at h
  cases hs : solve idx ((initialDemands R (seedLock R L pol)).length + idxWeight idx + 1)
      (initialDemands R (seedLock R L pol))
      ((seedLock R L pol).map (fun e => ⟨e, []⟩)) with
  | ok chosen =>
    rw [hs] at h
    simp only [Except.map] at h
    cases h
    exact ⟨chosen, rfl, rfl⟩
  | error c =>
    rw [hs] at h
    simp [Except.map] at h

theorem seed_entries_eq (seeds : List LockEntry) :
    (seeds.map (fun e => (⟨e, []⟩ : Choice))).map Choice.entry = seeds := by
  induction seeds with
  | nil => rfl
  | cons e es ih =>
    simp only [List.map_cons]
    rw [ih]

theorem resolve_ok_nodup {R : List Requirement} {L : List LockEntry} {idx : Index}
    {pol : Policy} {l : List LockEntry} (h : resolve R L idx pol = .ok l) :
    (l.map LockEntry.name).Nodup := by
  obtain ⟨chosen, hs, hl⟩ := resolve_ok_inv h
  have hnd : (((seedLock R L pol).map (fun e => (⟨e, []⟩ : Choice))).map
      Choice.entry).map LockEntry.name |>.Nodup := by
    rw [seed_entries_eq]
    exact seedLock_names_nodup R L pol
  rw [hl]
  exact solve_ok_nodup idx _ _ _ chosen hnd hs

theorem resolve_ok_req_sat {R : List Requirement} {L : List LockEntry} {idx : Index}
    {pol : Policy} {l : List LockEntry} (h : resolve R L idx pol = .ok l) :
    ∀ r ∈ R, ∃ e ∈ l, e.name = r.package ∧ satC e.version r.constraint = true := by
  obtain ⟨chosen, hs, hl⟩ := resolve_ok_inv h
  intro r hr
  have hd : reqDemand r ∈ initialDemands R (seedLock R L pol) :=
    List.mem_append_left _ (List.mem_map_of_mem reqDemand hr)
  obtain ⟨en, hen, hname, hsat⟩ := solve_ok_sat idx _ _ _ chosen hs (reqDemand r) hd
  exact ⟨en, hl ▸ hen, hname, hsat⟩

theorem resolve_ok_closed {R : List Requirement} {L : List LockEntry} {idx : Index}
    {pol : Policy} {l : List LockEntry} (h : resolve R L idx pol = .ok l) :
    ∀ e ∈ l, ∀ n ∈ e.deps, ∃ e2 ∈ l, e2.name = n := by
  obtain ⟨chosen, hs, hl⟩ := resolve_ok_inv h
  have hinv : ∀ en ∈ ((seedLock R L pol).map (fun e => (⟨e, []⟩ : Choice))).map Choice.entry,
      ∀ n ∈ en.deps,
      (∃ en2 ∈ ((seedLock R L pol).map (fun e => (⟨e, []⟩ : Choice))).map Choice.entry,
        en2.name = n) ∨
      (∃ d ∈ initialDemands R (seedLock R L pol), d.package = n) := by
    rw [seed_entries_eq]
    intro en hen n hn
    refine Or.inr ⟨⟨en.name, n, .anyC, false⟩, ?_, rfl⟩
    refine List.mem_append_right _ ?_
    rw [List.mem_flatMap]
    exact ⟨en, hen, List.mem_map_of_mem _ hn⟩
  intro e he n hn
  obtain ⟨e2, he2, hname⟩ := solve_ok_closed idx _ _ _ chosen hinv hs e (hl ▸ he) n hn
  exact ⟨e2, hl ▸ he2, hname⟩

theorem resolve_seed_mem {R : List Requirement} {L : List LockEntry} {idx : Index}
    {pol : Policy} {l : List LockEntry} {e : LockEntry}
    (hseed : e ∈ seedLock R L pol) (h : resolve R L idx pol = .ok l) : e ∈ l := by
  obtain ⟨chosen, hs, hl⟩ := resolve_ok_inv h
  obtain ⟨ext, hext⟩ := solve_ok_entries idx _ _ _ chosen hs
  rw [hl, hext, seed_entries_eq]
  exact List.mem_append_left _ hseed

theorem seedKeep_all {R : List Requirement} {L : List LockEntry}
    (h1 : ∀ r ∈ R, ∃ e ∈ L, e.name = r.package ∧ satC e.version r.constraint = true)
    (h3 : (L.map LockEntry.name).Nodup)
    (h4 : ∀ e ∈ L, (requiredBy R e.name || referredBy L e.name) = true) :
    ∀ e ∈ L, seedKeep R L defaultPolicy e = true := by
  intro e he
  simp only [seedKeep, defaultPolicy, Bool.not_false, Bool.true_and, List.contains_nil,
    Bool.and_eq_true]
  refine ⟨?_, h4 e he⟩
  simp only [directSat, List.all_eq_true]
  intro r hr
  by_cases hcase : r.package = e.name
  · obtain ⟨e2, he2, hname, hsat⟩ := h1 r hr
    have : e2 = e := eq_of_map_nodup LockEntry.name h3 he2 he (by rw [hname, hcase])
    subst this
    simp [hsat]
  · simp [bne_iff_ne, hcase]

theorem seedLock_noop {R : List Requirement} {L : List LockEntry}
    (h1 : ∀ r ∈ R, ∃ e ∈ L, e.name = r.package ∧ satC e.version r.constraint = true)
    (h3 : (L.map LockEntry.name).Nodup)
    (h4 : ∀ e ∈ L, (requiredBy R e.name || referredBy L e.name) = true) :
    seedLock R L defaultPolicy = L := by
  unfold seedLock dedupByName
  rw [List.filter_eq_self.mpr (seedKeep_all h1 h3 h4)]
  exact dedupGo_eq_self L [] (by intro x _ hx; simp at hx) h3

theorem resolve_noop {R : List Requirement} {L : List LockEntry} {idx : Index}
    (h1 : ∀ r ∈ R, ∃ e ∈ L, e.name = r.package ∧ satC e.version r.constraint = true)
    (h2 : ∀ e ∈ L, ∀ n ∈ e.deps, ∃ e2 ∈ L, e2.name = n)
    (h3 : (L.map LockEntry.name).Nodup)
    (h4 : ∀ e ∈ L, (requiredBy R e.name || referredBy L e.name) = true) :
    resolve R L idx defaultPolicy = .ok L := by
  have hseeds := seedLock_noop h1 h3 h4
  have hsat : ∀ d ∈ initialDemands R L,
      ∃ en ∈ (L.map (fun e => (⟨e, []⟩ : Choice))).map Choice.entry,
        en.name = d.package ∧ satC en.version d.constraint = true := by
    rw [seed_entries_eq]
    intro d hd
    rcases List.mem_append.mp hd with hd | hd
    · obtain ⟨r, hr, hrd⟩ := List.mem_map.mp hd
      obtain ⟨e, he, hname, hsat⟩ := h1 r hr
      rw [← hrd]
      exact ⟨e, he, hname, hsat⟩
    · rw [List.mem_flatMap] at hd
      obtain ⟨e, he, hde⟩ := hd
      obtain ⟨n, hn, hdn⟩ := List.mem_map.mp hde
      obtain ⟨e2, he2, hname⟩ := h2 e he n hn
      rw [← hdn]
      exact ⟨e2, he2, hname, rfl⟩
  have hnd : ((L.map (fun e => (⟨e, []⟩ : Choice))).map Choice.entry).map
      LockEntry.name |>.Nodup := by
    rw [seed_entries_eq]
    exact h3
  obtain ⟨chosen2, heq, hent⟩ := solve_allsat idx (initialDemands R L)
    ((initialDemands R L).length + idxWeight idx + 1)
    (L.map (fun e => ⟨e, []⟩)) hsat hnd (by omega)
  rw [resolve_def, hseeds, heq]
  simp only [Except.map]
  rw [hent, seed_entries_eq]

/-! ### Helper lemmas about the tracker and the apply phase -/

theorem applyInstalls_error :
    ∀ (pairs : List (LockEntry × Artifact)) (log : List String)
      (tr tr2 : List InstalledDistribution),
      applyInstalls log tr pairs = .error tr2 → tr2 = rollbackInstalls log tr := by
  intro pairs
  induction pairs with
  | nil => intro log tr tr2 h; simp [applyInstalls] at h
  | cons p rest ih =>
    intro log tr tr2 h
    obtain ⟨e, a⟩ := p
    simp only [applyInstalls] at h
    cases hinst : installDist tr e a with
    | some tr3 =>
      rw [hinst] at h
      have h2 := ih (e.name :: log) tr3 tr2 h
      have htr3 : tr3 = distOf e a :: tr := by
        unfold installDist at hinst
        split at hinst
        · cases hinst; rfl
        · cases hinst
      rw [h2, htr3]
      unfold rollbackInstalls
      rw [List.foldl_cons]
      have herase : eraseFirstName e.name (distOf e a :: tr) = tr := by
        simp [eraseFirstName, distOf]
      rw [herase]
    | none =>
      rw [hinst] at h
      cases h
      rfl

theorem applyInstalls_any_bad :
    ∀ (pairs : List (LockEntry × Artifact)) (log : List String)
      (tr : List InstalledDistribution),
      (pairs.any fun p => p.2.hash != p.1.hash) = true →
      ∃ tr2, applyInstalls log tr pairs = .error tr2 := by
  intro pairs
  induction pairs with
  | nil => intro log tr h; simp at h
  | cons p rest ih =>
    intro log tr h
    obtain ⟨e, a⟩ := p
    simp only [applyInstalls]
    cases hinst : installDist tr e a with
    | some tr3 =>
      have hgood : a.hash = e.hash := by
        unfold installDist at hinst
        split at hinst
        · assumption
        · cases hinst
      have hrest : (rest.any fun p => p.2.hash != p.1.hash) = true := by
        simp only [List.any_cons, Bool.or_eq_true] at h
        rcases h with h | h
        · exfalso
          simp only [bne_iff_ne] at h
          exact h hgood
        · exact h
      exact ih (e.name :: log) tr3 hrest
    | none => exact ⟨rollbackInstalls log tr, rfl⟩

theorem applyInstalls_bad_exact {pairs : List (LockEntry × Artifact)}
    {tr : List InstalledDistribution}
    (h : (pairs.any fun p => p.2.hash != p.1.hash) = true) :
    applyInstalls [] tr pairs = .error tr := by
  obtain ⟨tr2, h2⟩ := applyInstalls_any_bad pairs [] tr h
  have := applyInstalls_error pairs [] tr tr2 h2
  rw [h2, this]
  rfl

theorem applyInstalls_ok_lookup :
    ∀ (pairs : List (LockEntry × Artifact)) (log : List String)
      (tr tr2 : List InstalledDistribution) (X : String),
      applyInstalls log tr pairs = .ok tr2 → (∀ p ∈ pairs, p.1.name ≠ X) →
      lookupDist tr2 X = lookupDist tr X := by
  intro pairs
  induction pairs with
  | nil =>
    intro log tr tr2 X h _
    simp only [applyInstalls] at h
    cases h
    rfl
  | cons p rest ih =>
    intro log tr tr2 X h hX
    obtain ⟨e, a⟩ := p
    simp only [applyInstalls] at h
    cases hinst : installDist tr e a with
    | some tr3 =>
      rw [hinst] at h
      have htr3 : tr3 = distOf e a :: tr := by
        unfold installDist at hinst
        split at hinst
        · cases hinst; rfl
        · cases hinst
      have hrec := ih (e.name :: log) tr3 tr2 X h
        (fun p hp => hX p (List.mem_cons_of_mem _ hp))
      rw [hrec, htr3]
      have hne : e.name ≠ X := hX (e, a) (List.mem_cons_self _ _)
      simp only [lookupDist, List.find?_cons]
      have : ((distOf e a).name == X) = false := by
        simp [distOf, hne]
      rw [this]
    | none =>
      rw [hinst] at h
      cases h

theorem lookup_removeDistAll_self (X : String) :
    ∀ (tr : List InstalledDistribution), lookupDist (removeDistAll tr X) X = none := by
  intro tr
  rw [lookupDist, List.find?_eq_none]
  intro d hd
  have := List.mem_filter.mp hd
  have h2 := this.2
  simp only [bne_iff_ne] at h2
  simp [h2]

theorem lookup_removeDistAll_ne {X n : String} (hX : X ≠ n) :
    ∀ (tr : List InstalledDistribution),
      lookupDist (removeDistAll tr n) X = lookupDist tr X := by
  intro tr
  induction tr with
  | nil => rfl
  | cons d ds ih =>
    simp only [removeDistAll, List.filter_cons]
    by_cases hd : d.name = n
    · rw [if_neg (by simp [hd])]
      have : lookupDist (d :: ds) X = lookupDist ds X := by
        simp only [lookupDist, List.find?_cons]
        have : (d.name == X) = false := by
          simp [hd]
          exact fun h => hX h.symm
        rw [this]
      rw [this]
      exact ih
    · rw [if_pos (by simp [bne_iff_ne, hd])]
      simp only [lookupDist, List.find?_cons]
      by_cases hdx : d.name = X
      · rw [show (d.name == X) = true by simp [hdx]]
      · rw [show (d.name == X) = false by simp [hdx]]
        exact ih

theorem lookup_removeDistAll_none {X n : String} {tr : List InstalledDistribution}
    (h : lookupDist tr X = none) : lookupDist (removeDistAll tr n) X = none := by
  rw [lookupDist, List.find?_eq_none]
  intro d hd
  have hmem := (List.mem_filter.mp hd).1
  have := List.find?_eq_none.mp h d hmem
  exact this

theorem foldl_removeDist_none {X : String} :
    ∀ (removals : List String) (tr : List InstalledDistribution),
      lookupDist tr X = none →
      lookupDist (removals.foldl removeDistAll tr) X = none := by
  intro removals
  induction removals with
  | nil => intro tr h; exact h
  | cons n rest ih =>
    intro tr h
    rw [List.foldl_cons]
    exact ih _ (lookup_removeDistAll_none h)

theorem foldl_removeDist_mem {X : String} :
    ∀ (removals : List String) (tr : List InstalledDistribution),
      X ∈ removals → lookupDist (removals.foldl removeDistAll tr) X = none := by
  intro removals
  induction removals with
  | nil => intro tr h; simp at h
  | cons n rest ih =>
    intro tr h
    rw [List.foldl_cons]
    rcases List.mem_cons.mp h with h | h
    · subst h
      exact foldl_removeDist_none rest _ (lookup_removeDistAll_self X _)
    · exact ih _ h

theorem foldl_removeDist_not_mem {X : String} :
    ∀ (removals : List String) (tr : List InstalledDistribution),
      X ∉ removals →
      lookupDist (removals.foldl removeDistAll tr) X = lookupDist tr X := by
  intro removals
  induction removals with
  | nil => intro tr _; rfl
  | cons n rest ih =>
    intro tr h
    rw [List.foldl_cons]
    have hXn : X ≠ n := fun hc => h (hc ▸ List.mem_cons_self n rest)
    rw [ih _ (fun hc => h (List.mem_cons_of_mem n hc))]
    exact lookup_removeDistAll_ne hXn tr

/-! ### Helper lemmas about serialization, lookup and diff -/

theorem decodeStrs_encode : ∀ (l : List String), decodeStrs (l.map Doc.str) = some l := by
  intro l
  induction l with
  | nil => rfl
  | cons s rest ih =>
    simp only [List.map_cons, decodeStrs, ih]
    rfl

theorem decodeEntry_encode (e : LockEntry) : decodeEntry (encodeEntry e) = some e := by
  simp only [encodeEntry, decodeEntry, decodeStrs_encode]
  rfl

theorem decodeEntries_encode : ∀ (L : List LockEntry),
    decodeEntries (L.map encodeEntry) = some L := by
  intro L
  induction L with
  | nil => rfl
  | cons e rest ih =>
    simp only [List.map_cons, decodeEntries, decodeEntry_encode, ih]
    rfl

theorem lookupEntry_isSome {L : List LockEntry} {e : LockEntry} (he : e ∈ L) :
    (lookupEntry L e.name).isSome = true := by
  rw [lookupEntry, List.find?_isSome]
  exact ⟨e, he, by simp⟩

theorem lookupEntry_self {L : List LockEntry} (hnd : (L.map LockEntry.name).Nodup)
    {e : LockEntry} (he : e ∈ L) : lookupEntry L e.name = some e := by
  cases hf : lookupEntry L e.name with
  | none =>
    exfalso
    have h1 := lookupEntry_isSome he
    rw [hf] at h1
    simp at h1
  | some e2 =>
    have hmem := List.mem_of_find?_eq_some hf
    have hpred := List.find?_some hf
    simp only [beq_iff_eq] at hpred
    rw [eq_of_map_nodup LockEntry.name hnd hmem he hpred]

theorem lockDiff_self {L : List LockEntry} (hnd : (L.map LockEntry.name).Nodup) :
    lockDiff L L = ⟨[], [], []⟩ := by
  unfold lockDiff
  have hadded : L.filter (fun e => (lookupEntry L e.name).isNone) = [] := by
    rw [List.filter_eq_nil_iff]
    intro e he hc
    have h1 := lookupEntry_isSome he
    rw [Option.isNone_iff_eq_none] at hc
    rw [hc] at h1
    simp at h1
  have hchanged : (L.filterMap (fun e =>
      match lookupEntry L e.name with
      | some e2 => if e2 = e then none else some (e, e2)
      | none => none)) = [] := by
    rw [List.filterMap_eq_nil_iff]
    intro e he
    rw [lookupEntry_self hnd he]
    simp
  rw [hadded, hchanged]

theorem resolve_ok_avoid {R : List Requirement} {L : List LockEntry} {idx : Index}
    {pol : Policy} {l : List LockEntry} {X : String}
    (hidx : ∀ p ∈ idx, ∀ c ∈ p.2, ∀ q ∈ c.deps, q.1 ≠ X)
    (hseeds : ∀ e ∈ seedLock R L pol, e.name ≠ X ∧ X ∉ e.deps)
    (hreq : ∀ r ∈ R, r.package ≠ X)
    (h : resolve R L idx pol = .ok l) :
    ∀ e ∈ l, e.name ≠ X ∧ X ∉ e.deps := by
  obtain ⟨chosen, hs, hl⟩ := resolve_ok_inv h
  have hch : ∀ en ∈ ((seedLock R L pol).map (fun e => (⟨e, []⟩ : Choice))).map Choice.entry,
      en.name ≠ X ∧ X ∉ en.deps := by
    rw [seed_entries_eq]
    exact hseeds
  have hp : ∀ d ∈ initialDemands R (seedLock R L pol), d.package ≠ X := by
    intro d hd
    rcases List.mem_append.mp hd with hd | hd
    · obtain ⟨r, hr, hrd⟩ := List.mem_map.mp hd
      rw [← hrd]
      exact hreq r hr
    · rw [List.mem_flatMap] at hd
      obtain ⟨e, he, hde⟩ := hd
      obtain ⟨n, hn, hdn⟩ := List.mem_map.mp hde
      rw [← hdn]
      intro hc
      exact (hseeds e he).2 (hc ▸ hn)
  intro e he
  exact solve_ok_avoid idx X hidx _ _ _ chosen hch hp hs e (hl ▸ he)

/-! ### Helper lemmas about conflict minimization and error reporting -/

/-- C1: two calls to resolve with identical inputs (the same requirement
set, the same prior lock and the same distribution index snapshot, and
the same policy) return identical locks; the resolver is a pure function
and is deterministic run to run. -/
theorem c1_resolve_deterministic
    (R1 R2 : List Requirement) (L1 L2 : List LockEntry) (idx1 idx2 : Index)
    (pol1 pol2 : Policy)
    (hR : R1 = R2) (hL : L1 = L2) (hidx : idx1 = idx2) (hpol : pol1 = pol2) :
    resolve R1 L1 idx1 pol1 = resolve R2 L2 idx2 pol2 := by
  subst hR
  subst hL
  subst hidx
  subst hpol
  rfl

/-- Witness for C1 at a concrete input. -/
theorem c1_resolve_deterministic_witness :
    resolve [⟨"A", .anyC, .production, false⟩] []
        [("A", [⟨1, false, [], "s", 0⟩])] defaultPolicy
      = resolve [⟨"A", .anyC, .production, false⟩] []
        [("A", [⟨1, false, [], "s", 0⟩])] defaultPolicy :=
  c1_resolve_deterministic _ _ _ _ _ _ _ _ rfl rfl rfl rfl

/-- C2: when some install in the batch carries an artifact whose content
hash mismatches its lock entry (an IntegrityError during the Applying
phase), the transaction rolls back: the tracker ends with zero net new
distributions (every mutation is undone, and no removal has been
performed, removals being batched strictly after all installs), and the
persisted lock and manifest are unchanged, the whole system state being
exactly the pre-transaction state. -/
theorem c2_rollback_atomic (sys : SysState) (nm : List Requirement)
    (nl : List LockEntry) (installs : List (LockEntry × Artifact))
    (removals : List String)
    (h : (installs.any fun p => p.2.hash != p.1.hash) = true) :
    runTxn sys nm nl installs removals = (sys, .rolledBack) := by
  unfold runTxn applyPhase
  rw [applyInstalls_bad_exact h]

/-- Witness for C2: an IntegrityError on the third of five installs in
one transaction leaves the state exactly unchanged. -/
theorem c2_rollback_atomic_witness :
    runTxn ⟨[], [], [⟨"old", 1, 0⟩], []⟩ [] []
      [(⟨"p1", 1, 1, "s", []⟩, ⟨1⟩), (⟨"p2", 1, 2, "s", []⟩, ⟨2⟩),
       (⟨"p3", 1, 3, "s", []⟩, ⟨99⟩), (⟨"p4", 1, 4, "s", []⟩, ⟨4⟩),
       (⟨"p5", 1, 5, "s", []⟩, ⟨5⟩)] ["old"]
    = (⟨[], [], [⟨"old", 1, 0⟩], []⟩, .rolledBack) :=
  c2_rollback_atomic _ _ _ _ _ (by decide)

/-- C5: saving a lock through the Lock Store and loading it back yields
a lock equal to the original, for every lock value. -/
theorem c5_lock_roundtrip (L : List LockEntry) : loadLock (saveLock L) = some L := by
  simp only [saveLock, loadLock]
  exact decodeEntries_encode L

theorem strTruthy_of_dash {n : String} (h : startsWithDash n = true) :
    strTruthy n = true := by
  unfold startsWithDash at h
  unfold strTruthy
  cases hd : n.data with
  | nil => rw [hd] at h; cases h
  | cons c rest => rfl

theorem dashGuard_true {n : String} (h : startsWithDash n = true) :
    dashGuard (some n) = true := by
  show (strTruthy n && startsWithDash n) = true
  rw [strTruthy_of_dash h, h]
  rfl

/-- C9: for every package name that starts with a dash character, the
CLI install, uninstall and upgrade commands only print an error message
and never invoke the underlying package manager, so any managed state
(manifest, lock and installed distributions) is left unchanged by such a
call, whatever the package manager semantics are. -/
theorem c9_dash_guard_frame {σ : Type} (mgr : ManagerCall → σ → σ) (st : σ)
    (n : String) (dev : Bool) (python platform : Option String)
    (optionalFlag prerelease force : Bool)
    (h : startsWithDash n = true) :
    cliInstall (some n) dev python platform optionalFlag prerelease
        = .printed "error: not a valid install argument" ∧
    cliUninstall (some n) = .printed "error: not a valid install argument" ∧
    cliUpgrade (some n) force = .printed "error: not a valid install argument" ∧
    runEffect mgr st (cliInstall (some n) dev python platform optionalFlag prerelease) = st ∧
    runEffect mgr st (cliUninstall (some n)) = st ∧
    runEffect mgr st (cliUpgrade (some n) force) = st := by
  have hg := dashGuard_true h
  refine ⟨?_, ?_, ?_, ?_, ?_, ?_⟩ <;>
    simp [cliInstall, cliUninstall, cliUpgrade, hg, runEffect]

/-- Witness for C9 at the concrete dash argument. -/
theorem c9_dash_guard_frame_witness :
    cliInstall (some "-x") false none none false false
        = .printed "error: not a valid install argument" ∧
    cliUninstall (some "-x") = .printed "error: not a valid install argument" ∧
    cliUpgrade (some "-x") false = .printed "error: not a valid install argument" ∧
    runEffect (fun _ s => s + 1) (0 : Nat)
        (cliInstall (some "-x") false none none false false) = 0 ∧
    runEffect (fun _ s => s + 1) (0 : Nat) (cliUninstall (some "-x")) = 0 ∧
    runEffect (fun _ s => s + 1) (0 : Nat) (cliUpgrade (some "-x") false) = 0 :=
  c9_dash_guard_frame (fun _ s => s + 1) 0 "-x" false none none false false false
    (by decide)

/-- C10: init is guarded by the existence of the manifest file. When the
file exists, init leaves the configuration unchanged and only prints a
message; when it does not, init writes a fresh project table with
version 0.1.0 and empty dependencies and dev-dependencies mappings; and
running init twice, with any names, leaves the same configuration state
as running it once. -/
theorem c10_init_guard (name : String) (st : ConfigState) :
    (st.fileExists = true → cliInit name st = (st, ["project is already initialized"])) ∧
    (st.fileExists = false →
      (cliInit name st).1 = ⟨true, some ⟨["Jesse P. Johnson"], name,
        "Description for the project", "0.1.0", [], []⟩⟩) ∧
    (∀ name2, (cliInit name2 (cliInit name st).1).1 = (cliInit name st).1) := by
  refine ⟨?_, ?_, ?_⟩
  · intro hex
    simp [cliInit, hex]
  · intro hex
    simp [cliInit, hex, freshTable]
  · intro name2
    cases hex : st.fileExists
    · simp [cliInit, hex]
    · simp [cliInit, hex]

/-- Witness for C10 at concrete states for both guard branches. -/
theorem c10_init_guard_witness :
    cliInit "proj" ⟨true, none⟩ = (⟨true, none⟩, ["project is already initialized"]) ∧
    (cliInit "proj" ⟨false, none⟩).1 = ⟨true, some ⟨["Jesse P. Johnson"], "proj",
      "Description for the project", "0.1.0", [], []⟩⟩ :=
  ⟨(c10_init_guard "proj" ⟨true, none⟩).1 rfl,
   (c10_init_guard "proj" ⟨false, none⟩).2.1 rfl⟩

theorem length_eq_one_of {α : Type} {l : List α} {e : α}
    (hnd : l.Nodup) (hall : ∀ x ∈ l, x = e) (he : e ∈ l) : l.length = 1 := by
  cases l with
  | nil => simp at he
  | cons x xs =>
    have hx : x = e := hall x (List.mem_cons_self x xs)
    cases xs with
    | nil => rfl
    | cons y ys =>
      exfalso
      have hy : y = e := hall y (List.mem_cons_of_mem x (List.mem_cons_self y ys))
      simp only [List.nodup_cons] at hnd
      apply hnd.1
      rw [hx, ← hy]
      exact List.mem_cons_self y ys

/-- C6: every lock produced by the resolver satisfies the lock
invariant: each requirement has exactly one lock entry whose version
satisfies its constraint, every dependency edge of a lock entry points
to an entry present in the same lock, and no two entries share a
package name. -/
theorem c6_lock_invariant (R : List Requirement) (L : List LockEntry) (idx : Index)
    (pol : Policy) (l : List LockEntry)
    (h : resolve R L idx pol = .ok l) :
    (∀ r ∈ R, (l.filter
      (fun e => e.name == r.package && satC e.version r.constraint)).length = 1) ∧
    (∀ e ∈ l, ∀ n ∈ e.deps, ∃ e2 ∈ l, e2.name = n) ∧
    (l.map LockEntry.name).Nodup := by
  have hnd := resolve_ok_nodup h
  refine ⟨?_, resolve_ok_closed h, hnd⟩
  intro r hr
  obtain ⟨e, he, hname, hsat⟩ := resolve_ok_req_sat h r hr
  have hemem : e ∈ l.filter (fun e => e.name == r.package && satC e.version r.constraint) :=
    List.mem_filter.mpr ⟨he, by simp [hname, hsat]⟩
  apply length_eq_one_of ((hnd.of_map).filter _) ?_ hemem
  intro x hx
  obtain ⟨hxl, hxp⟩ := List.mem_filter.mp hx
  simp only [Bool.and_eq_true, beq_iff_eq] at hxp
  exact eq_of_map_nodup LockEntry.name hnd hxl he (by rw [hxp.1, hname])

/-- Witness for C6 at a concrete resolution with a transitive
dependency. -/
theorem c6_lock_invariant_witness :
    (∀ r ∈ ([⟨"A", .anyC, .production, false⟩] : List Requirement),
      (([⟨"A", 2, 1, "s", ["B"]⟩, ⟨"B", 1, 2, "s", []⟩] : List LockEntry).filter
        (fun e => e.name == r.package && satC e.version r.constraint)).length = 1) ∧
    (∀ e ∈ ([⟨"A", 2, 1, "s", ["B"]⟩, ⟨"B", 1, 2, "s", []⟩] : List LockEntry),
      ∀ n ∈ e.deps, ∃ e2 ∈ ([⟨"A", 2, 1, "s", ["B"]⟩, ⟨"B", 1, 2, "s", []⟩] :
        List LockEntry), e2.name = n) ∧
    (([⟨"A", 2, 1, "s", ["B"]⟩, ⟨"B", 1, 2, "s", []⟩] : List LockEntry).map
      LockEntry.name).Nodup :=
  c6_lock_invariant [⟨"A", .anyC, .production, false⟩] []
    [("A", [⟨2, false, [("B", .geC 1)], "s", 1⟩]), ("B", [⟨1, false, [], "s", 2⟩])]
    defaultPolicy [⟨"A", 2, 1, "s", ["B"]⟩, ⟨"B", 1, 2, "s", []⟩] rfl

theorem requiredBy_true {R : List Requirement} {pkg : String}
    (h : requiredBy R pkg = true) : ∃ r ∈ R, r.package = pkg := by
  unfold requiredBy at h
  rw [List.any_eq_true] at h
  obtain ⟨r, hr, hp⟩ := h
  exact ⟨r, hr, by simpa using hp⟩

/-- C3 counterexample: with manifest requiring P at least 1, a prior
lock pinning P at version 1 that satisfies the whole manifest, and
index candidates 1 and 2 for P, adding the new requirement P at least 2
re-resolves successfully to P at version 2. The accumulated constraint
set for P is still satisfiable (by version 2), so the claim as stated
promises that P keeps its exact pinned version 1, yet the produced lock
does not retain it: the pinned version is rejected by the new
requirement and the entry is re-chosen, not kept. -/
theorem c3_claim_counterexample :
    (∀ r ∈ ([⟨"P", .geC 1, .production, false⟩] : List Requirement),
      ∃ e ∈ ([⟨"P", 1, 5, "s", []⟩] : List LockEntry),
        e.name = r.package ∧ satC e.version r.constraint = true) ∧
    (resolve
      ([⟨"P", .geC 1, .production, false⟩] ++ [⟨"P", .geC 2, .development, false⟩])
      [⟨"P", 1, 5, "s", []⟩]
      [("P", [⟨2, false, [], "s", 5⟩, ⟨1, false, [], "s", 5⟩])] defaultPolicy
      = .ok [⟨"P", 2, 5, "s", []⟩]) ∧
    (satC 2 (.geC 1) = true ∧ satC 2 (.geC 2) = true) ∧
    ¬ (∃ e ∈ ([⟨"P", 2, 5, "s", []⟩] : List LockEntry),
        e.name = "P" ∧ e.version = 1) := by
  refine ⟨by decide, rfl, ⟨rfl, rfl⟩, by decide⟩

/-- C3 as amended: if the prior lock satisfies every requirement of the
manifest and, after adding the new requirement, the pinned entry is
still wanted (still directly required or still referred to by another
prior entry) and its version still satisfies every direct requirement
on its package including the new one, then the entry is seeded and the
new lock keeps the package at its exact prior version. The amendment
replaces the unless-clause of the claim: churn is avoided unless the
new constraint set rejects the pinned version itself, not only when it
is jointly unsatisfiable. -/
theorem c3_seeded_pins_preserved
    (R : List Requirement) (newReq : Requirement) (L : List LockEntry) (idx : Index)
    (l2 : List LockEntry) (e : LockEntry)
    (hnd : (L.map LockEntry.name).Nodup)
    (_hprior : ∀ r ∈ R, ∃ e2 ∈ L, e2.name = r.package ∧ satC e2.version r.constraint = true)
    (he : e ∈ L)
    (hwant : (requiredBy (R ++ [newReq]) e.name || referredBy L e.name) = true)
    (hsat : directSat (R ++ [newReq]) e = true)
    (hok : resolve (R ++ [newReq]) L idx defaultPolicy = .ok l2) :
    e ∈ l2 ∧ ∃ e2 ∈ l2, e2.name = e.name ∧ e2.version = e.version := by
  have hkeep : seedKeep (R ++ [newReq]) L defaultPolicy e = true := by
    simp only [seedKeep, defaultPolicy, Bool.not_false, Bool.true_and, List.contains_nil,
      Bool.and_eq_true]
    exact ⟨hsat, hwant⟩
  have hmem := resolve_seed_mem (mem_seedLock_of hnd he hkeep) hok
  exact ⟨hmem, e, hmem, rfl, rfl⟩

/-- Witness for the amended C3: adding a fresh requirement Q keeps the
pinned entry P at its exact prior version even though a newer candidate
of P exists. -/
theorem c3_seeded_pins_preserved_witness :
    (⟨"P", 1, 5, "s", []⟩ : LockEntry) ∈
      ([⟨"P", 1, 5, "s", []⟩, ⟨"Q", 1, 9, "s", []⟩] : List LockEntry) ∧
    ∃ e2 ∈ ([⟨"P", 1, 5, "s", []⟩, ⟨"Q", 1, 9, "s", []⟩] : List LockEntry),
      e2.name = "P" ∧ e2.version = 1 :=
  c3_seeded_pins_preserved
    [⟨"P", .geC 1, .production, false⟩] ⟨"Q", .anyC, .production, false⟩
    [⟨"P", 1, 5, "s", []⟩]
    [("P", [⟨2, false, [], "s", 7⟩, ⟨1, false, [], "s", 5⟩]), ("Q", [⟨1, false, [], "s", 9⟩])]
    [⟨"P", 1, 5, "s", []⟩, ⟨"Q", 1, 9, "s", []⟩] ⟨"P", 1, 5, "s", []⟩
    (by decide) (by decide) (by decide) (by decide) (by decide) rfl

/-- C8: uninstalling a package that is not present in the manifest is a
no-op success, not an error: the transaction resolves to the very same
lock, diffs to nothing, touches no installed distribution and commits,
leaving the whole state unchanged; running the same uninstall a second
time therefore leaves the identical lock and manifest state as running
it once. -/
theorem c8_uninstall_noop_idempotent (sys : SysState) (X : String)
    (hwf : WFState sys) (hX : requiredBy sys.manifest X = false) :
    uninstallFlow sys X = (sys, .committed) ∧
    uninstallFlow (uninstallFlow sys X).1 X = (sys, .committed) := by
  obtain ⟨h1, h2, h3, h4⟩ := hwf
  have hfilter : sys.manifest.filter (fun r => r.package != X) = sys.manifest := by
    rw [List.filter_eq_self]
    intro r hr
    unfold requiredBy at hX
    rw [List.any_eq_false] at hX
    have := hX r hr
    simp only [beq_iff_eq] at this
    simp [bne_iff_ne, this]
  have hres : resolve sys.manifest sys.lock sys.idx defaultPolicy = .ok sys.lock :=
    resolve_noop h1 h2 h3 h4
  have hmain : uninstallFlow sys X = (sys, .committed) := by
    simp only [uninstallFlow, hfilter, hres, lockDiff_self h3]
    simp [runTxn, applyPhase, applyInstalls, fetchAll, removalNames]
  refine ⟨hmain, ?_⟩
  rw [hmain]
  exact hmain

/-- Witness for C8: uninstalling the absent package Z from a consistent
state is a committed no-op, once and twice. -/
theorem c8_uninstall_noop_idempotent_witness :
    uninstallFlow ⟨[⟨"A", .anyC, .production, false⟩],
        [⟨"A", 2, 1, "s", ["B"]⟩, ⟨"B", 1, 2, "s", []⟩],
        [⟨"A", 2, 1⟩, ⟨"B", 1, 2⟩], []⟩ "Z"
      = (⟨[⟨"A", .anyC, .production, false⟩],
        [⟨"A", 2, 1, "s", ["B"]⟩, ⟨"B", 1, 2, "s", []⟩],
        [⟨"A", 2, 1⟩, ⟨"B", 1, 2⟩], []⟩, .committed) ∧
    uninstallFlow (uninstallFlow ⟨[⟨"A", .anyC, .production, false⟩],
        [⟨"A", 2, 1, "s", ["B"]⟩, ⟨"B", 1, 2, "s", []⟩],
        [⟨"A", 2, 1⟩, ⟨"B", 1, 2⟩], []⟩ "Z").1 "Z"
      = (⟨[⟨"A", .anyC, .production, false⟩],
        [⟨"A", 2, 1, "s", ["B"]⟩, ⟨"B", 1, 2, "s", []⟩],
        [⟨"A", 2, 1⟩, ⟨"B", 1, 2⟩], []⟩, .committed) :=
  c8_uninstall_noop_idempotent _ "Z" (by decide) (by decide)

theorem applyPhase_ok_inv {tr : List InstalledDistribution}
    {installs : List (LockEntry × Artifact)} {removals : List String}
    {tr2 : List InstalledDistribution}
    (h : applyPhase tr installs removals = .ok tr2) :
    ∃ tr3, applyInstalls [] tr installs = .ok tr3 ∧
      tr2 = removals.foldl removeDistAll tr3 := by
  unfold applyPhase at h
  split at h
  · cases h
  · rename_i tr3 heq
    cases h
    exact ⟨tr3, heq, rfl⟩

theorem fetchAll_fst {idx : Index} :
    ∀ (es : List LockEntry) (pairs : List (LockEntry × Artifact)),
      fetchAll idx es = some pairs → pairs.map Prod.fst = es := by
  intro es
  induction es with
  | nil =>
    intro pairs h
    simp only [fetchAll] at h
    cases h
    rfl
  | cons e rest ih =>
    intro pairs h
    simp only [fetchAll] at h
    cases hfa : fetchArtifact idx e with
    | none => rw [hfa] at h; simp at h
    | some a =>
      rw [hfa] at h
      simp only [Option.some_bind] at h
      cases hrest : fetchAll idx rest with
      | none => rw [hrest] at h; simp at h
      | some ps =>
        rw [hrest] at h
        simp only [Option.map_some'] at h
        cases h
        simp only [List.map_cons]
        rw [ih ps hrest]

theorem uninstallFlow_committed_inv {sys : SysState} {name : String} {sys2 : SysState}
    (h : uninstallFlow sys name = (sys2, .committed)) :
    ∃ nl pairs tr3,
      resolve (sys.manifest.filter (fun r => r.package != name)) sys.lock sys.idx
        defaultPolicy = .ok nl ∧
      fetchAll sys.idx ((lockDiff sys.lock nl).added ++
        (lockDiff sys.lock nl).changed.map (fun p => p.2)) = some pairs ∧
      applyInstalls [] sys.tracker pairs = .ok tr3 ∧
      sys2 = ⟨sys.manifest.filter (fun r => r.package != name), nl,
        (removalNames (lockDiff sys.lock nl) nl).foldl removeDistAll tr3, sys.idx⟩ := by
  simp only [uninstallFlow] at h
  split at h
  · simp at h
  · rename_i nl heq
    split at h
    · simp at h
    · rename_i pairs heq2
      unfold runTxn at h
      split at h
      · simp at h
      · rename_i tr2 heq3
        obtain ⟨tr3, hinst, htr⟩ := applyPhase_ok_inv heq3
        refine ⟨nl, pairs, tr3, heq, heq2, hinst, ?_⟩
        have hfst := congrArg Prod.fst h
        simp only at hfst
        rw [← hfst, htr]

/-- C7: on a committed uninstall transaction, a package X that is no
longer required by any remaining requirement and has no other referrer
(no other lock entry or index candidate depends on it) loses both its
lock entry and its installed distribution; and if a remaining requirer
still requires X directly and its pinned entry still satisfies the
remaining constraints, the lock entry of X and its installed
distribution remain. -/
theorem c7_orphan_pruning :
    (∀ (sys : SysState) (name : String) (sys2 : SysState) (X : String),
      uninstallFlow sys name = (sys2, .committed) →
      (∀ r ∈ sys.manifest, r.package ≠ name → r.package ≠ X) →
      (∀ e ∈ sys.lock, e.name ≠ X → X ∉ e.deps) →
      (∀ p ∈ sys.idx, ∀ c ∈ p.2, ∀ q ∈ c.deps, q.1 ≠ X) →
      X ∈ sys.lock.map LockEntry.name →
      (∀ e ∈ sys2.lock, e.name ≠ X) ∧ lookupDist sys2.tracker X = none) ∧
    (∀ (sys : SysState) (name : String) (sys2 : SysState) (X : String) (eX : LockEntry),
      uninstallFlow sys name = (sys2, .committed) →
      eX ∈ sys.lock → eX.name = X →
      (sys.lock.map LockEntry.name).Nodup →
      requiredBy (sys.manifest.filter (fun r => r.package != name)) X = true →
      directSat (sys.manifest.filter (fun r => r.package != name)) eX = true →
      (lookupDist sys.tracker X).isSome = true →
      eX ∈ sys2.lock ∧ (lookupDist sys2.tracker X).isSome = true) := by
  constructor
  · intro sys name sys2 X hflow hnr href hidx hXold
    obtain ⟨nl, pairs, tr3, hres, hfetch, hinst, hsys2⟩ := uninstallFlow_committed_inv hflow
    have hreqX : ∀ r ∈ sys.manifest.filter (fun r => r.package != name), r.package ≠ X := by
      intro r hr
      obtain ⟨hrm, hrp⟩ := List.mem_filter.mp hr
      exact hnr r hrm (by simpa [bne_iff_ne] using hrp)
    have hrefX : referredBy sys.lock X = false := by
      unfold referredBy
      rw [List.any_eq_false]
      intro e2 he2
      by_cases hcase : e2.name = X
      · simp [hcase]
      · have hnot := href e2 he2 hcase
        simp [hnot]
    have hseedsX : ∀ e ∈ seedLock (sys.manifest.filter (fun r => r.package != name))
        sys.lock defaultPolicy, e.name ≠ X ∧ X ∉ e.deps := by
      intro e he
      obtain ⟨heL, hkeep⟩ := seedLock_sub _ _ _ e he
      have hname : e.name ≠ X := by
        intro hcase
        simp only [seedKeep, defaultPolicy, Bool.not_false, Bool.true_and,
          List.contains_nil, Bool.and_eq_true] at hkeep
        have hor := hkeep.2
        rw [Bool.or_eq_true] at hor
        rcases hor with hq | hq
        · obtain ⟨r, hr, hrp⟩ := requiredBy_true (hcase ▸ hq)
          exact hreqX r hr hrp
        · rw [hcase, hrefX] at hq
          cases hq
      exact ⟨hname, href e heL hname⟩
    have havoid := resolve_ok_avoid hidx hseedsX hreqX hres
    constructor
    · rw [hsys2]
      intro e he
      exact (havoid e he).1
    · rw [hsys2]
      apply foldl_removeDist_mem
      obtain ⟨eX, heX, heXname⟩ := List.mem_map.mp hXold
      unfold removalNames
      rw [List.mem_map]
      refine ⟨eX, ?_, heXname⟩
      rw [List.mem_filter]
      constructor
      · show eX ∈ (lockDiff sys.lock nl).removed
        unfold lockDiff
        rw [List.mem_filter]
        refine ⟨heX, ?_⟩
        have hnone : lookupEntry nl eX.name = none := by
          rw [lookupEntry, List.find?_eq_none]
          intro e he
          simp [heXname, (havoid e he).1]
        rw [hnone]
        rfl
      · rw [List.all_eq_true]
        intro e2 he2
        have hnotdep := (havoid e2 he2).2
        rw [heXname]
        simp [hnotdep]
  · intro sys name sys2 X eX hflow heX hname hnd hreq hsat htr
    obtain ⟨nl, pairs, tr3, hres, hfetch, hinst, hsys2⟩ := uninstallFlow_committed_inv hflow
    have hkeep : seedKeep (sys.manifest.filter (fun r => r.package != name))
        sys.lock defaultPolicy eX = true := by
      simp only [seedKeep, defaultPolicy, Bool.not_false, Bool.true_and,
        List.contains_nil, Bool.and_eq_true]
      refine ⟨hsat, ?_⟩
      rw [Bool.or_eq_true]
      left
      rw [hname]
      exact hreq
    have hmem := resolve_seed_mem (mem_seedLock_of hnd heX hkeep) hres
    have hnlnodup := resolve_ok_nodup hres
    have hlookup_nl : lookupEntry nl X = some eX := by
      rw [← hname]
      exact lookupEntry_self hnlnodup hmem
    constructor
    · rw [hsys2]
      exact hmem
    · rw [hsys2]
      have hXnotrem : X ∉ removalNames (lockDiff sys.lock nl) nl := by
        intro hc
        unfold removalNames at hc
        obtain ⟨e, he, hen⟩ := List.mem_map.mp hc
        obtain ⟨hrem, _⟩ := List.mem_filter.mp he
        obtain ⟨heL, hiso⟩ := List.mem_filter.mp hrem
        rw [hen, hlookup_nl] at hiso
        simp at hiso
      rw [foldl_removeDist_not_mem _ _ hXnotrem]
      have hpairs : ∀ p ∈ pairs, p.1.name ≠ X := by
        intro p hp hc
        have hfst := fetchAll_fst _ pairs hfetch
        have hp1 : p.1 ∈ (lockDiff sys.lock nl).added ++
            (lockDiff sys.lock nl).changed.map (fun q => q.2) := by
          rw [← hfst]
          exact List.mem_map_of_mem Prod.fst hp
        rcases List.mem_append.mp hp1 with hadd | hchg
        · obtain ⟨_, hiso⟩ := List.mem_filter.mp hadd
          rw [hc] at hiso
          have hsome := lookupEntry_isSome heX
          rw [hname] at hsome
          rw [Option.isNone_iff_eq_none] at hiso
          rw [hiso] at hsome
          cases hsome
        · obtain ⟨pr, hpr, hpr2⟩ := List.mem_map.mp hchg
          obtain ⟨e, heL, hmat⟩ := List.mem_filterMap.mp hpr
          cases hle : lookupEntry nl e.name with
          | none => simp [hle] at hmat
          | some e2 =>
            simp only [hle] at hmat
            by_cases he2e : e2 = e
            · rw [if_pos he2e] at hmat; cases hmat
            · rw [if_neg he2e] at hmat
              cases hmat
              have he2p : e2 = p.1 := hpr2
              have he2name : e2.name = e.name := by
                have := List.find?_some hle
                simpa using this
              have hename : e.name = X := by
                rw [← he2name, he2p]
                exact hc
              have heeX : e = eX := eq_of_map_nodup LockEntry.name hnd heL heX
                (by rw [hename, hname])
              rw [heeX, hname, hlookup_nl] at hle
              cases hle
              exact he2e heeX.symm
      rw [applyInstalls_ok_lookup pairs [] sys.tracker tr3 X hinst hpairs]
      exact htr

/-- Witness for C7: uninstalling B when nothing else refers to it prunes
both its lock entry and its installed distribution; uninstalling A when
B is still directly required keeps the lock entry and distribution of B. -/
theorem c7_orphan_pruning_witness :
    ((∀ e ∈ ([⟨"A", 1, 1, "s", []⟩] : List LockEntry), e.name ≠ "B") ∧
      lookupDist [⟨"A", 1, 1⟩] "B" = none) ∧
    ((⟨"B", 1, 2, "s", []⟩ : LockEntry) ∈ ([⟨"B", 1, 2, "s", []⟩] : List LockEntry) ∧
      (lookupDist [⟨"B", 1, 2⟩] "B").isSome = true) :=
  ⟨c7_orphan_pruning.1
      ⟨[⟨"A", .anyC, .production, false⟩, ⟨"B", .anyC, .production, false⟩],
       [⟨"A", 1, 1, "s", []⟩, ⟨"B", 1, 2, "s", []⟩],
       [⟨"A", 1, 1⟩, ⟨"B", 1, 2⟩],
       [("A", [⟨1, false, [], "s", 1⟩]), ("B", [⟨1, false, [], "s", 2⟩])]⟩
      "B"
      ⟨[⟨"A", .anyC, .production, false⟩],
       [⟨"A", 1, 1, "s", []⟩], [⟨"A", 1, 1⟩],
       [("A", [⟨1, false, [], "s", 1⟩]), ("B", [⟨1, false, [], "s", 2⟩])]⟩
      "B" rfl (by decide) (by decide) (by decide) (by decide),
   c7_orphan_pruning.2
      ⟨[⟨"A", .anyC, .production, false⟩, ⟨"B", .anyC, .production, false⟩],
       [⟨"A", 2, 1, "s", ["B"]⟩, ⟨"B", 1, 2, "s", []⟩],
       [⟨"A", 2, 1⟩, ⟨"B", 1, 2⟩],
       [("A", [⟨2, false, [("B", .geC 1)], "s", 1⟩]), ("B", [⟨1, false, [], "s", 2⟩])]⟩
      "A"
      ⟨[⟨"B", .anyC, .production, false⟩],
       [⟨"B", 1, 2, "s", []⟩], [⟨"B", 1, 2⟩],
       [("A", [⟨2, false, [("B", .geC 1)], "s", 1⟩]), ("B", [⟨1, false, [], "s", 2⟩])]⟩
      "B" ⟨"B", 1, 2, "s", []⟩ rfl (by decide) rfl (by decide) (by decide) (by decide)
      (by decide)⟩
